import Mathlib

/-!
# Verification of the FedBot extractive summarizer core

This file is a shallow embedding of the `summarize` function of
`fedbot.py` (lines 107-127) together with theorems checking the design
document's claims about it.

The Python source is:

```
def summarize(text: str, num_sentences: int = DEFAULT_SENTENCES) -> str:
    sentences = sent_tokenize(text)
    words = [[j for j in word_tokenize(i)
              if j not in ignored_words and j not in string.punctuation]
             for i in sentences]
    if not words:  # Return whole text if cannot extract any distinguishing words
        return sentences
    word_freq = collections.Counter(itertools.chain.from_iterable(words))
    logger.info(word_freq)
    max_freq = list(word_freq.values())[0]  # Valid if Counter is sorted high-to-low, which it is
    freq_by_sentence = collections.Counter(
        {i: sum(word_freq[k] / max_freq for k in j) / len(j) for (i, j) in enumerate(words)}
    )
    return " ".join(sentences[j] for j in sorted(i[0] for i in freq_by_sentence.most_common(num_sentences)))
```

Embedding conventions:
* `sent_tokenize` / `word_tokenize` / the stopword list / `string.punctuation`
  are third-party collaborators (NLTK, the Python standard library); the design
  document treats them as external interfaces.  They are modelled as an
  abstract `Extern` record of a sentence segmenter, a word tokenizer and the
  two exclusion predicates.  All theorems quantify over this record; concrete
  instances are used for witnesses and counterexamples.
* Python floats are idealized as exact rationals (`ℚ`).
* A Python `collections.Counter` built from an iterable keeps its keys in
  first-occurrence order and maps each key to its number of occurrences;
  `list(word_freq.values())[0]` is therefore the occurrence count of the
  *first* element of the flattened token list (`Counter` iteration order is
  insertion order; it is *not* sorted by count).  This is modelled by
  `firstOccurrences` / `counterValues` / `max_freq`.  `word_freq[k]` is the
  number of occurrences of `k` in the flattened token list, modelled by
  `List.count`.
* `Counter.most_common(n)` is documented as equivalent to a stable
  descending sort of the items by value, truncated to `n` entries (for
  `n ≤ 0` it returns `[]`; `Int.toNat` sends non-positive `n` to `0`, making
  `take n.toNat` faithful).  The stable sort is modelled by
  `List.insertionSort` with the "not strictly below" relation, which places
  equal-valued items in insertion order — here ascending sentence index,
  since the dict `{i: score}` is built by `enumerate`.
* Python raising an exception is modelled by `Except.error`; `summarize` can
  return either a string (normal path) or a list (the degenerate branch
  returns `sentences`, a list), modelled by `PyValue`.
* Division by zero raises `ZeroDivisionError` in Python; the embedding
  tests `len(j) = 0` explicitly before using `ℚ` division (where `x / 0 = 0`
  would silently differ from Python).
-/

/-- A Python exception escaping `summarize`. -/
inductive PyError where
  | indexError
  | zeroDivisionError
deriving DecidableEq

/-- The value returned by `summarize`: a string on the normal path, a list of
strings on the degenerate `return sentences` path. -/
inductive PyValue where
  | vStr : String → PyValue
  | vList : List String → PyValue
deriving DecidableEq

/-- The external collaborators of the summarizer core: NLTK's `sent_tokenize`
and `word_tokenize`, the loaded stopword list (`j in ignored_words`) and the
punctuation test (`j in string.punctuation`). -/
structure Extern where
  sentTokenize : String → List String
  wordTokenize : String → List String
  isStopword : String → Bool
  isPunct : String → Bool

/-- `sentences = sent_tokenize(text)`. -/
def sentencesOf (E : Extern) (text : String) : List String :=
  E.sentTokenize text

/-- `words`: per sentence, the tokens that are neither stopwords nor
punctuation. -/
def wordsOf (E : Extern) (text : String) : List (List String) :=
  (sentencesOf E text).map fun i =>
    (E.wordTokenize i).filter fun j => !E.isStopword j && !E.isPunct j

/-- `itertools.chain.from_iterable(words)`: the flattened token list the
`Counter` is built from. -/
def flatOf (E : Extern) (text : String) : List String :=
  (wordsOf E text).flatten

/-- The keys of `collections.Counter(l)` in iteration order: first-occurrence
order of `l`.  `seen` accumulates the keys already emitted. -/
def firstOccAux (seen : List String) : List String → List String
  | [] => []
  | x :: xs => if seen.contains x then firstOccAux seen xs
               else x :: firstOccAux (x :: seen) xs

/-- Keys of `Counter(l)` in iteration (= first-occurrence) order. -/
def firstOccurrences (l : List String) : List String :=
  firstOccAux [] l

/-- `list(Counter(l).values())`: the occurrence counts in key-iteration
order. -/
def counterValues (l : List String) : List Nat :=
  (firstOccurrences l).map fun k => l.count k

/-- `max_freq = list(word_freq.values())[0]`: the first stored count, i.e. the
occurrence count of the first flattened token; `none` models the `IndexError`
raised when the `Counter` is empty. -/
def max_freq (l : List String) : Option Nat :=
  (counterValues l).head?

/-- The greatest count in the frequency model (`0` for an empty model).
Modelled from the spec: the design document defines `maxFrequency` as "the
greatest count value in the model" and requires it to be computed as a
max-reduction over all counts; the source instead takes the first stored
count (see `max_freq`). -/
def maxFreqSpec (l : List String) : Nat :=
  (counterValues l).foldr max 0

/-- `sum(word_freq[k] / max_freq for k in j) / len(j)`: the importance score
of one sentence with token list `j`, where `flat` is the request's flattened
token list (so `word_freq[k] = flat.count k`) and `mf` the normalizer used. -/
def sentScore (flat : List String) (mf : ℚ) (j : List String) : ℚ :=
  ((j.map fun k => (flat.count k : ℚ) / mf).sum) / (j.length : ℚ)

/-- Per-sentence score as in the spec's §4.2 formula.
Modelled from the spec: identical to `sentScore` except that the normalizer
is the greatest count `maxFreqSpec` rather than the source's first stored
count. -/
def sentScoreSpec (flat : List String) (j : List String) : ℚ :=
  ((j.map fun k => (flat.count k : ℚ) / (maxFreqSpec flat : ℚ)).sum) / (j.length : ℚ)

/-- The items of `freq_by_sentence` in insertion order: `(i, score of words[i])`
for `i` ascending, as produced by `enumerate(words)`. -/
def freqBySentence (E : Extern) (text : String) (mf : ℚ) : List (Nat × ℚ) :=
  (wordsOf E text).enum.map fun p => (p.1, sentScore (flatOf E text) mf p.2)

/-- Stable descending-by-score sort of `(index, score)` items: an item goes
before another exactly when the other's score does not exceed its own, which
keeps equal-score items in insertion order.  `Counter.most_common` is
documented to order items this way. -/
def rankDesc (l : List (Nat × ℚ)) : List (Nat × ℚ) :=
  l.insertionSort fun a b => b.2 ≤ a.2

/-- `freq_by_sentence.most_common(k)`: the top `k` items of the stable
descending sort (all of them when fewer than `k`; none when `k ≤ 0`). -/
def mostCommon (l : List (Nat × ℚ)) (k : Int) : List (Nat × ℚ) :=
  (rankDesc l).take k.toNat

/-- `sorted(i[0] for i in freq_by_sentence.most_common(k))`: the selected
sentence indices, re-sorted ascending. -/
def selectedOf (l : List (Nat × ℚ)) (k : Int) : List Nat :=
  ((mostCommon l k).map Prod.fst).insertionSort (· ≤ ·)

/-- `" ".join(sentences[j] for j in idxs)`. -/
def render (sents : List String) (idxs : List Nat) : String :=
  String.intercalate " " (idxs.map fun j => sents.getD j "")

/-- Shallow embedding of `summarize(text, num_sentences)`.  The stages follow
the source line by line; the two `Except.error` results model the
`IndexError` of `list(word_freq.values())[0]` on an empty `Counter` and the
`ZeroDivisionError` of `... / len(j)` for a sentence with an empty filtered
token list (the comprehension scores *every* sentence of `words`). -/
def summarize (E : Extern) (text : String) (k : Int) : Except PyError PyValue :=
  if (wordsOf E text).isEmpty then
    .ok (.vList (sentencesOf E text))
  else
    match max_freq (flatOf E text) with
    | none => .error .indexError
    | some mf =>
      if (wordsOf E text).any List.isEmpty then
        .error .zeroDivisionError
      else
        .ok (.vStr (render (sentencesOf E text)
          (selectedOf (freqBySentence E text (mf : ℚ)) k)))

/-- `DEFAULT_SENTENCES = 5`. -/
def DEFAULT_SENTENCES : Int := 5

/-- Splitting a character list at a separator character. -/
def splitOnChar (c : Char) : List Char → List (List Char)
  | [] => [[]]
  | x :: xs =>
    let r := splitOnChar c xs
    if x = c then [] :: r
    else
      match r with
      | [] => [[x]]
      | y :: ys => (x :: y) :: ys

/-- Split a string at a separator character, dropping empty pieces. -/
def splitTokens (c : Char) (s : String) : List String :=
  ((splitOnChar c s.data).map fun l => String.mk l).filter fun t => t ≠ ""

/-- A concrete instantiation of the external collaborators, used for
witnesses and counterexamples: sentences are separated by `'|'`, words by
spaces, with a small fixed stopword list and punctuation set.  It satisfies
the collaborator contract of the design document (an ordered sequence of
sentences, each tokenized into an ordered sequence of tokens, with a fixed
exclusion set), and segmenting the empty string yields no sentences. -/
def testExtern : Extern where
  sentTokenize t := splitTokens '|' t
  wordTokenize s := splitTokens ' ' s
  isStopword w := ["the", "a", "an", "is", "are"].contains w
  isPunct w := [".", ",", "!", "?"].contains w

example : sentencesOf testExtern "" = [] := rfl
example : wordsOf testExtern "the a an" = [[]] := rfl
example : summarize testExtern "good dog" 5 = .ok (.vStr "good dog") := rfl

/-! ## General lemmas about the pipeline -/

/-- The degenerate branch's guard `if not words` fires exactly when there are
no sentences, since `words` has one entry per sentence. -/
theorem wordsOf_isEmpty (E : Extern) (text : String) :
    (wordsOf E text).isEmpty = (sentencesOf E text).isEmpty := by
  unfold wordsOf
  cases sentencesOf E text <;> rfl

/-- The sentence indices carried by `freq_by_sentence`, in insertion order,
are `0, 1, …, n-1` where `n` is the number of sentences. -/
theorem map_fst_freqBySentence (E : Extern) (text : String) (m : ℚ) :
    (freqBySentence E text m).map Prod.fst = List.range (wordsOf E text).length := by
  unfold freqBySentence
  rw [List.map_map]
  exact List.enum_map_fst (wordsOf E text)

theorem length_freqBySentence (E : Extern) (text : String) (m : ℚ) :
    (freqBySentence E text m).length = (wordsOf E text).length := by
  unfold freqBySentence
  rw [List.length_map, List.enum_length]

theorem rankDesc_perm (l : List (Nat × ℚ)) : List.Perm (rankDesc l) l :=
  List.perm_insertionSort _ l

/-- The selected index list is sorted ascending. -/
theorem selectedOf_sorted (l : List (Nat × ℚ)) (k : Int) :
    (selectedOf l k).Sorted (· ≤ ·) :=
  List.sorted_insertionSort _ _

theorem selectedOf_perm (l : List (Nat × ℚ)) (k : Int) :
    List.Perm (selectedOf l k) ((mostCommon l k).map Prod.fst) :=
  List.perm_insertionSort _ _

/-- If the carried indices are distinct, the selected index list is distinct. -/
theorem selectedOf_nodup (l : List (Nat × ℚ)) (k : Int)
    (h : (l.map Prod.fst).Nodup) : (selectedOf l k).Nodup := by
  have h1 : List.Sublist ((mostCommon l k).map Prod.fst) ((rankDesc l).map Prod.fst) :=
    (List.take_sublist _ _).map Prod.fst
  have h2 : ((rankDesc l).map Prod.fst).Nodup :=
    ((rankDesc_perm l).map Prod.fst).nodup_iff.mpr h
  exact (selectedOf_perm l k).nodup_iff.mpr (h1.nodup h2)

/-- With distinct indices, the selected index list is strictly increasing:
if sentence `A` precedes sentence `B` in the input and both are selected,
`A` precedes `B` in the output. -/
theorem selectedOf_pairwise_lt (l : List (Nat × ℚ)) (k : Int)
    (h : (l.map Prod.fst).Nodup) : (selectedOf l k).Pairwise (· < ·) :=
  ((selectedOf_sorted l k).and (selectedOf_nodup l k h)).imp
    fun h => lt_of_le_of_ne h.1 h.2

/-- Exactly `min k n` indices are selected (`0` of them when `k ≤ 0`). -/
theorem selectedOf_length (l : List (Nat × ℚ)) (k : Int) :
    (selectedOf l k).length = min k.toNat l.length := by
  rw [(selectedOf_perm l k).length_eq, List.length_map]
  unfold mostCommon
  rw [List.length_take, (rankDesc_perm l).length_eq]

/-- When `k` covers the whole list, every index is selected, in ascending
order. -/
theorem selectedOf_eq_range (l : List (Nat × ℚ)) (k : Int) (n : Nat)
    (hfst : l.map Prod.fst = List.range n) (hk : l.length ≤ k.toNat) :
    selectedOf l k = List.range n := by
  have htake : mostCommon l k = rankDesc l := by
    unfold mostCommon
    exact List.take_of_length_le (by rw [(rankDesc_perm l).length_eq]; exact hk)
  have hperm : List.Perm (selectedOf l k) (List.range n) := by
    refine (selectedOf_perm l k).trans ?_
    rw [htake, ← hfst]
    exact (rankDesc_perm l).map Prod.fst
  exact List.eq_of_perm_of_sorted hperm (selectedOf_sorted l k)
    ((List.pairwise_lt_range n).imp le_of_lt)

/-- The non-degenerate, non-crashing run of `summarize`: with at least one
sentence, every sentence having at least one significant token, and the
`Counter` non-empty, `summarize` returns the joined selection. -/
theorem summarize_run (E : Extern) (text : String) (k : Int) (mf : Nat)
    (hmf : max_freq (flatOf E text) = some mf)
    (hne : wordsOf E text ≠ [])
    (hall : ∀ w ∈ wordsOf E text, w ≠ []) :
    summarize E text k =
      .ok (.vStr (render (sentencesOf E text)
        (selectedOf (freqBySentence E text (mf : ℚ)) k))) := by
  have h1 : (wordsOf E text).isEmpty = false := by
    cases hw : wordsOf E text with
    | nil => exact absurd hw hne
    | cons a l => rfl
  have h2 : (wordsOf E text).any List.isEmpty = false := by
    simp only [List.any_eq_false]
    intro x hx
    simp only [List.isEmpty_iff]
    exact hall x hx
  simp [summarize, h1, h2, hmf]

/-! ## C1: crash on unscorable-but-nonempty input -/

/-- C1 (code bug): on a text whose sentences contain only stopwords and
punctuation, `summarize` raises `IndexError` (at
`list(word_freq.values())[0]`, the `Counter` being empty) instead of
returning the degenerate fallback: with the concrete collaborators every
token of `"the a an"` is a stopword, one sentence exists, and the result is
an exception, not a value. -/
theorem C1_crash_on_unscorable_text :
    wordsOf testExtern "the a an" = [[]] ∧
    summarize testExtern "the a an" DEFAULT_SENTENCES = .error .indexError :=
  ⟨rfl, rfl⟩

/-! ## C2: sentences with empty token lists are scored, causing 0/0 -/

/-- C2 (code bug): a sentence whose filtered token list is empty is *not*
excluded from scoring: the comprehension scores every sentence, and
`sum(...) / len(j)` divides by zero on it.  Concretely, on
`"cats cats|the"` the second sentence filters to `[]` and `summarize`
raises `ZeroDivisionError` instead of ranking the one scorable sentence. -/
theorem C2_zero_division_on_empty_sentence :
    wordsOf testExtern "cats cats|the" = [["cats", "cats"], []] ∧
    summarize testExtern "cats cats|the" DEFAULT_SENTENCES = .error .zeroDivisionError :=
  ⟨rfl, rfl⟩

/-! ## C3: `max_freq` is not the maximum frequency -/

/-- C3 (code bug): `max_freq` is the count of the *first-inserted* key of the
`Counter` (Python dicts iterate in insertion order; the source comment
"Valid if Counter is sorted high-to-low, which it is" is wrong about
`collections.Counter`).  On `"cats dogs|dogs"` the first token "cats" has
count 1 while the greatest count is 2, and the normalized value of "dogs"
is `2/1 = 2`, outside `(0, 1]`. -/
theorem C3_max_freq_not_maximum :
    max_freq (flatOf testExtern "cats dogs|dogs") = some 1 ∧
    maxFreqSpec (flatOf testExtern "cats dogs|dogs") = 2 ∧
    ¬ (((flatOf testExtern "cats dogs|dogs").count "dogs" : ℚ) /
        (((max_freq (flatOf testExtern "cats dogs|dogs")).getD 0 : Nat) : ℚ) ≤ 1) := by
  refine ⟨rfl, rfl, ?_⟩
  have h : (flatOf testExtern "cats dogs|dogs").count "dogs" = 2 := rfl
  have h2 : (max_freq (flatOf testExtern "cats dogs|dogs")).getD 0 = 1 := rfl
  rw [h, h2]
  norm_num

/-! ## C4: the per-sentence score formula -/

/-- C4 (code bug): the implemented score divides by `max_freq` (the first
stored count), not by the greatest count as the claimed formula does.  On
`"cats dogs|dogs"` (where `max_freq = 1` but the greatest count is 2) the
sentence `["dogs"]` gets code score 2, while the claim's formula gives 1. -/
theorem C4_score_normalizer_differs :
    sentScore (flatOf testExtern "cats dogs|dogs")
        (((max_freq (flatOf testExtern "cats dogs|dogs")).getD 0 : Nat) : ℚ) ["dogs"] = 2 ∧
    sentScoreSpec (flatOf testExtern "cats dogs|dogs") ["dogs"] = 1 ∧
    (2 : ℚ) ≠ 1 := by
  have hf : flatOf testExtern "cats dogs|dogs" = ["cats", "dogs", "dogs"] := rfl
  have hm : (max_freq (flatOf testExtern "cats dogs|dogs")).getD 0 = 1 := rfl
  refine ⟨?_, ?_, by norm_num⟩
  · rw [hm, hf]
    norm_num +decide [sentScore]
  · rw [hf]
    norm_num +decide [sentScoreSpec, maxFreqSpec, counterValues, firstOccurrences, firstOccAux]

/-! ## C5: stability of the ranking -/

/-- Filtering the stable descending sort to one score value is the identity:
an inserted item lands before exactly the equal-or-lower scores, so items of
any fixed score keep their original relative order. -/
theorem filter_orderedInsert (a : Nat × ℚ) (l : List (Nat × ℚ)) (s : ℚ) :
    ((l.orderedInsert (fun x y => y.2 ≤ x.2) a).filter fun p => decide (p.2 = s))
      = if a.2 = s then a :: (l.filter fun p => decide (p.2 = s))
        else l.filter fun p => decide (p.2 = s) := by
  induction l with
  | nil =>
    simp only [List.orderedInsert_nil, List.filter]
    split_ifs with h
    · simp [h]
    · simp [h]
  | cons b l ih =>
    by_cases hab : b.2 ≤ a.2
    · have hstep : (b :: l).orderedInsert (fun x y => y.2 ≤ x.2) a = a :: b :: l := by
        simp [List.orderedInsert, hab]
      rw [hstep]
      simp only [List.filter_cons]
      split_ifs with h1 h2 h3 <;> simp_all
    · have hstep : (b :: l).orderedInsert (fun x y => y.2 ≤ x.2) a
          = b :: l.orderedInsert (fun x y => y.2 ≤ x.2) a := by
        simp [List.orderedInsert, hab]
      rw [hstep, List.filter_cons, ih]
      have hlt : a.2 < b.2 := lt_of_not_le hab
      by_cases has : a.2 = s
      · have hbs : ¬ (b.2 = s) := by
          intro hb
          exact absurd (le_of_eq (hb.trans has.symm)) hab
        simp [has, hbs, List.filter_cons]
      · simp [has, List.filter_cons]

/-- Stability of `most_common`'s ordering: among entries of equal score, the
ranked order is the insertion order (ascending sentence index). -/
theorem filter_rankDesc (l : List (Nat × ℚ)) (s : ℚ) :
    ((rankDesc l).filter fun p => decide (p.2 = s))
      = l.filter fun p => decide (p.2 = s) := by
  induction l with
  | nil => rfl
  | cons a l ih =>
    have hstep : rankDesc (a :: l)
        = (rankDesc l).orderedInsert (fun x y => y.2 ≤ x.2) a := rfl
    rw [hstep, filter_orderedInsert, List.filter_cons, ih]
    by_cases has : a.2 = s <;> simp [has]

/-- C5 counterexample: the two sentences of
`"x x y y z z|x y z z z z"` have identical word-sets `{x, y, z}` and identical
lengths (6 tokens each), yet with `k = 1` the *later* sentence is selected:
word-set plus length equality does not force equal scores (here the scores
are 4/3 and 5/3), so the claimed "hence identical scores" premise fails and
so does the claimed selection of the earlier sentence. -/
theorem C5_counterexample :
    ((wordsOf testExtern "x x y y z z|x y z z z z").getD 0 []).length
      = ((wordsOf testExtern "x x y y z z|x y z z z z").getD 1 []).length
    ∧ ((wordsOf testExtern "x x y y z z|x y z z z z").getD 0 []).toFinset
      = ((wordsOf testExtern "x x y y z z|x y z z z z").getD 1 []).toFinset
    ∧ summarize testExtern "x x y y z z|x y z z z z" 1 = .ok (.vStr "x y z z z z")
    ∧ "x y z z z z" ≠ (sentencesOf testExtern "x x y y z z|x y z z z z").getD 0 "" := by
  refine ⟨rfl, by decide, ?_, by decide⟩
  have hrun : summarize testExtern "x x y y z z|x y z z z z" 1
      = .ok (.vStr (render (sentencesOf testExtern "x x y y z z|x y z z z z")
          (selectedOf (freqBySentence testExtern "x x y y z z|x y z z z z" ((3 : Nat) : ℚ)) 1))) :=
    summarize_run testExtern "x x y y z z|x y z z z z" 1 3 rfl (by decide) (by decide)
  have hcmp : ¬ (sentScore (flatOf testExtern "x x y y z z|x y z z z z") ((3 : Nat) : ℚ)
        ["x", "y", "z", "z", "z", "z"]
      ≤ sentScore (flatOf testExtern "x x y y z z|x y z z z z") ((3 : Nat) : ℚ)
        ["x", "x", "y", "y", "z", "z"]) := by
    have hf : flatOf testExtern "x x y y z z|x y z z z z"
        = ["x", "x", "y", "y", "z", "z", "x", "y", "z", "z", "z", "z"] := rfl
    rw [hf]
    norm_num +decide [sentScore]
  have hfreq : freqBySentence testExtern "x x y y z z|x y z z z z" ((3 : Nat) : ℚ)
      = [(0, sentScore (flatOf testExtern "x x y y z z|x y z z z z") ((3 : Nat) : ℚ)
            ["x", "x", "y", "y", "z", "z"]),
         (1, sentScore (flatOf testExtern "x x y y z z|x y z z z z") ((3 : Nat) : ℚ)
            ["x", "y", "z", "z", "z", "z"])] := rfl
  have hsel : selectedOf (freqBySentence testExtern "x x y y z z|x y z z z z" ((3 : Nat) : ℚ)) 1
      = [1] := by
    rw [hfreq]
    generalize hga : sentScore (flatOf testExtern "x x y y z z|x y z z z z") ((3 : Nat) : ℚ)
        ["x", "x", "y", "y", "z", "z"] = sa at hcmp ⊢
    generalize hgb : sentScore (flatOf testExtern "x x y y z z|x y z z z z") ((3 : Nat) : ℚ)
        ["x", "y", "z", "z", "z", "z"] = sb at hcmp ⊢
    unfold selectedOf mostCommon rankDesc
    simp [List.insertionSort, List.orderedInsert, hcmp]
  rw [hrun, hsel]
  rfl

/-- C5 as amended: equal-score entries rank in their insertion order
(ascending sentence index), so among equal-score sentences the earlier one
ranks higher; and for two sentences whose token lists are permutations of
each other (identical token *multisets*, hence provably identical scores),
`k = 1` selects the earlier sentence. -/
theorem C5_stable_tiebreak :
    (∀ (l : List (Nat × ℚ)) (s : ℚ),
        ((rankDesc l).filter fun p => decide (p.2 = s))
          = l.filter fun p => decide (p.2 = s))
    ∧ ∀ (E : Extern) (text : String) (w₁ w₂ : List String) (mf : Nat),
        wordsOf E text = [w₁, w₂] → w₁ ≠ [] → List.Perm w₁ w₂ →
        max_freq (flatOf E text) = some mf →
        summarize E text 1 = .ok (.vStr ((sentencesOf E text).getD 0 "")) := by
  refine ⟨filter_rankDesc, ?_⟩
  intro E text w₁ w₂ mf hw hne hperm hmf
  have hw₂ : w₂ ≠ [] := fun h => hne (List.Perm.eq_nil (h ▸ hperm))
  have hne' : wordsOf E text ≠ [] := by rw [hw]; simp
  have hall : ∀ w ∈ wordsOf E text, w ≠ [] := by
    rw [hw]
    intro w hmem
    rcases List.mem_cons.mp hmem with h | h
    · exact h ▸ hne
    · rcases List.mem_cons.mp h with h' | h'
      · exact h' ▸ hw₂
      · exact absurd h' (List.not_mem_nil w)
  rw [summarize_run E text 1 mf hmf hne' hall]
  have hscore : sentScore (flatOf E text) (mf : ℚ) w₂
      = sentScore (flatOf E text) (mf : ℚ) w₁ := by
    unfold sentScore
    rw [hperm.length_eq, ((hperm.map fun k => ((flatOf E text).count k : ℚ) / (mf : ℚ))).sum_eq]
  have hfreq : freqBySentence E text (mf : ℚ)
      = [(0, sentScore (flatOf E text) (mf : ℚ) w₁),
         (1, sentScore (flatOf E text) (mf : ℚ) w₂)] := by
    unfold freqBySentence
    rw [hw]
    rfl
  have hsel : selectedOf (freqBySentence E text (mf : ℚ)) 1 = [0] := by
    rw [hfreq, hscore]
    unfold selectedOf mostCommon rankDesc
    simp [List.insertionSort, List.orderedInsert]
  rw [hsel]
  rfl

/-- C5 witness: on `"cat dog|dog cat"` (two permuted two-token sentences)
with `k = 1`, the first sentence is selected. -/
theorem C5_stable_tiebreak_witness :
    summarize testExtern "cat dog|dog cat" 1
      = .ok (.vStr ((sentencesOf testExtern "cat dog|dog cat").getD 0 "")) :=
  C5_stable_tiebreak.2 testExtern "cat dog|dog cat" ["cat", "dog"] ["dog", "cat"] 2
    rfl (by decide) (List.Perm.swap "dog" "cat" []) rfl

/-! ## C6: document order of the output -/

/-- C6: whenever `summarize` returns a summary string, it is the join of the
sentences at a strictly increasing list of original indices — so if sentence
`A` precedes sentence `B` in the input and both are selected, `A` precedes
`B` in the output. -/
theorem C6_output_in_document_order :
    ∀ (E : Extern) (text : String) (k : Int) (out : String),
      summarize E text k = .ok (.vStr out) →
      ∃ idxs : List Nat, idxs.Pairwise (· < ·)
        ∧ out = render (sentencesOf E text) idxs := by
  intro E text k out h
  unfold summarize at h
  split at h
  · simp at h
  · split at h
    · simp at h
    · rename_i mf hmf
      split at h
      · simp at h
      · simp only [Except.ok.injEq, PyValue.vStr.injEq] at h
        refine ⟨selectedOf (freqBySentence E text (mf : ℚ)) k, ?_, h.symm⟩
        apply selectedOf_pairwise_lt
        rw [map_fst_freqBySentence]
        exact List.nodup_range _

/-- C6 witness at a concrete run: `"good dog"` summarizes to itself, a render
of some strictly increasing index list. -/
theorem C6_output_in_document_order_witness :
    ∃ idxs : List Nat, idxs.Pairwise (· < ·)
      ∧ "good dog" = render (sentencesOf testExtern "good dog") idxs :=
  C6_output_in_document_order testExtern "good dog" 5 "good dog" rfl

/-! ## C7: size of the selection -/

/-- C7 counterexample: `"dogs dogs|a"` has one scorable sentence and `k = 1`,
but instead of a one-sentence summary the call raises `ZeroDivisionError`
(the second sentence's empty token list is scored, dividing by zero). -/
theorem C7_counterexample :
    wordsOf testExtern "dogs dogs|a" = [["dogs", "dogs"], []] ∧
    summarize testExtern "dogs dogs|a" 1 = .error .zeroDivisionError :=
  ⟨rfl, rfl⟩

/-- C7 as amended: on inputs where *every* sentence has at least one
significant token (the runs on which `summarize` does not raise), with at
least one sentence and `k ≥ 1`, the summary selects exactly
`min k n` sentence indices (`n` the number of sentences, all scorable), and
when `k ≥ n` it selects every sentence exactly once, in original order. -/
theorem C7_selection_count :
    ∀ (E : Extern) (text : String) (k : Int) (mf : Nat),
      max_freq (flatOf E text) = some mf →
      wordsOf E text ≠ [] →
      (∀ w ∈ wordsOf E text, w ≠ []) →
      1 ≤ k →
      summarize E text k = .ok (.vStr (render (sentencesOf E text)
          (selectedOf (freqBySentence E text (mf : ℚ)) k)))
      ∧ (selectedOf (freqBySentence E text (mf : ℚ)) k).length
          = min k.toNat (wordsOf E text).length
      ∧ ((wordsOf E text).length ≤ k.toNat →
          selectedOf (freqBySentence E text (mf : ℚ)) k
            = List.range (wordsOf E text).length) := by
  intro E text k mf hmf hne hall _
  refine ⟨summarize_run E text k mf hmf hne hall, ?_, ?_⟩
  · rw [selectedOf_length, length_freqBySentence]
  · intro hk
    exact selectedOf_eq_range _ k _ (map_fst_freqBySentence E text (mf : ℚ))
      (by rw [length_freqBySentence]; exact hk)

/-- C7 witness: `"cats meow|dogs bark"` with `k = 5 ≥ n = 2` selects both
sentences, in order. -/
theorem C7_selection_count_witness :
    summarize testExtern "cats meow|dogs bark" 5
      = .ok (.vStr (render (sentencesOf testExtern "cats meow|dogs bark")
          (selectedOf (freqBySentence testExtern "cats meow|dogs bark" ((1 : Nat) : ℚ)) 5)))
    ∧ (selectedOf (freqBySentence testExtern "cats meow|dogs bark" ((1 : Nat) : ℚ)) 5).length
        = min (5 : Int).toNat (wordsOf testExtern "cats meow|dogs bark").length
    ∧ ((wordsOf testExtern "cats meow|dogs bark").length ≤ (5 : Int).toNat →
        selectedOf (freqBySentence testExtern "cats meow|dogs bark" ((1 : Nat) : ℚ)) 5
          = List.range (wordsOf testExtern "cats meow|dogs bark").length) :=
  C7_selection_count testExtern "cats meow|dogs bark" 5 1 rfl (by decide) (by decide) (by decide)

/-! ## C8: determinism and independence from mapping iteration order -/

/-- Rescaling all scores by a common factor turns `sentScore` with normalizer
`m` into `sentScore` with normalizer `1`. -/
theorem sentScore_scale (flat : List String) (m : ℚ) (j : List String) :
    sentScore flat m j = sentScore flat 1 j * m⁻¹ := by
  unfold sentScore
  have h1 : (j.map fun k => (flat.count k : ℚ) / m)
      = j.map fun k => ((flat.count k : ℚ) / 1) * m⁻¹ := by
    simp [div_eq_mul_inv]
  rw [h1, List.sum_map_mul_right, mul_div_right_comm]

theorem freqBySentence_scale (E : Extern) (text : String) (m : ℚ) :
    freqBySentence E text m
      = (freqBySentence E text 1).map fun p => (p.1, p.2 * m⁻¹) := by
  unfold freqBySentence
  rw [List.map_map]
  refine List.map_congr_left fun p _ => ?_
  show (p.1, sentScore (flatOf E text) m p.2)
      = (p.1, sentScore (flatOf E text) 1 p.2 * m⁻¹)
  rw [sentScore_scale]

/-- Inserting into the descending ranking commutes with rescaling all scores
by a positive factor. -/
theorem orderedInsert_scale (r : ℚ) (hr : 0 < r) (a : Nat × ℚ) (l : List (Nat × ℚ)) :
    (l.map fun p => (p.1, p.2 * r)).orderedInsert (fun x y => y.2 ≤ x.2) (a.1, a.2 * r)
      = (l.orderedInsert (fun x y => y.2 ≤ x.2) a).map fun p => (p.1, p.2 * r) := by
  induction l with
  | nil => rfl
  | cons b l ih =>
    by_cases h : b.2 ≤ a.2
    · have h' : b.2 * r ≤ a.2 * r := (mul_le_mul_right hr).mpr h
      simp [List.orderedInsert, h, h']
    · have h' : ¬ (b.2 * r ≤ a.2 * r) := fun hc => h ((mul_le_mul_right hr).mp hc)
      simp [List.orderedInsert, h, h', ih]

/-- The stable descending ranking commutes with rescaling all scores by a
positive factor. -/
theorem rankDesc_scale (r : ℚ) (hr : 0 < r) (l : List (Nat × ℚ)) :
    rankDesc (l.map fun p => (p.1, p.2 * r)) = (rankDesc l).map fun p => (p.1, p.2 * r) := by
  induction l with
  | nil => rfl
  | cons a l ih =>
    show ((l.map fun p => (p.1, p.2 * r)).insertionSort fun x y => y.2 ≤ x.2).orderedInsert
        (fun x y => y.2 ≤ x.2) (a.1, a.2 * r) = _
    rw [show ((l.map fun p => (p.1, p.2 * r)).insertionSort fun x y => y.2 ≤ x.2)
          = rankDesc (l.map fun p => (p.1, p.2 * r)) from rfl, ih]
    exact orderedInsert_scale r hr a (rankDesc l)

/-- Rescaling every score by a positive factor does not change which
sentences are selected. -/
theorem selectedOf_scale (r : ℚ) (hr : 0 < r) (l : List (Nat × ℚ)) (k : Int) :
    selectedOf (l.map fun p => (p.1, p.2 * r)) k = selectedOf l k := by
  unfold selectedOf mostCommon
  rw [rankDesc_scale r hr, ← List.map_take, List.map_map]
  rfl

/-- C8: `summarize` is a pure function of its inputs, and — the substantive
half of the claim — its selection does not depend on the iteration order of
the internal `Counter` mapping.  The only place that order enters is the
value extracted as `max_freq`, and *any* positive normalizer yields the same
selection (every score is divided by the same constant, which preserves the
ranking and its ties), hence the identical output string. -/
theorem C8_order_independence :
    ∀ (E : Extern) (text : String) (k : Int) (m₁ m₂ : ℚ),
      0 < m₁ → 0 < m₂ →
      selectedOf (freqBySentence E text m₁) k = selectedOf (freqBySentence E text m₂) k := by
  intro E text k m₁ m₂ h₁ h₂
  rw [freqBySentence_scale E text m₁, freqBySentence_scale E text m₂,
    selectedOf_scale _ (inv_pos.mpr h₁), selectedOf_scale _ (inv_pos.mpr h₂)]

/-- C8 witness: on `"big cat|small cat"` the selection under normalizers 1
and 2 coincides. -/
theorem C8_order_independence_witness :
    selectedOf (freqBySentence testExtern "big cat|small cat" 1) 2
      = selectedOf (freqBySentence testExtern "big cat|small cat" 2) 2 :=
  C8_order_independence testExtern "big cat|small cat" 2 1 2 zero_lt_one zero_lt_two

/-! ## C9: non-positive `k` -/

/-- C9 counterexample: for `k = 0 ≤ 0` on the all-stopword text `"the"`,
the caller gets neither an empty summary nor a rejected call but an
`IndexError` escaping from inside the scoring (the claim quantifies over
*every* input text). -/
theorem C9_counterexample :
    summarize testExtern "the" 0 = .error .indexError :=
  rfl

/-- C9 as amended: on the runs where scoring succeeds (at least one
sentence, every sentence with a significant token), any `k ≤ 0` produces
the empty summary string — `most_common(k)` returns no items. -/
theorem C9_nonpositive_k_empty_summary :
    ∀ (E : Extern) (text : String) (k : Int) (mf : Nat),
      max_freq (flatOf E text) = some mf →
      wordsOf E text ≠ [] →
      (∀ w ∈ wordsOf E text, w ≠ []) →
      k ≤ 0 →
      summarize E text k = .ok (.vStr "") := by
  intro E text k mf hmf hne hall hk
  rw [summarize_run E text k mf hmf hne hall]
  have hsel : selectedOf (freqBySentence E text (mf : ℚ)) k = [] := by
    unfold selectedOf mostCommon
    rw [Int.toNat_of_nonpos hk]
    rfl
  rw [hsel]
  rfl

/-- C9 witness: `"hello world"` with `k = -3` gives the empty summary. -/
theorem C9_nonpositive_k_empty_summary_witness :
    summarize testExtern "hello world" (-3) = .ok (.vStr "") :=
  C9_nonpositive_k_empty_summary testExtern "hello world" (-3) 1
    rfl (by decide) (by decide) (by decide)

/-! ## C10: the degenerate branch -/

/-- If there is at least one sentence, `summarize` never returns the
list-valued fallback (it returns a string or raises). -/
theorem summarize_no_vList (E : Extern) (text : String) (k : Int)
    (h : sentencesOf E text ≠ []) :
    ∀ l, summarize E text k ≠ .ok (.vList l) := by
  intro l hl
  unfold summarize at hl
  split at hl
  · rename_i hempty
    rw [wordsOf_isEmpty] at hempty
    exact h (List.isEmpty_iff.mp hempty)
  · split at hl
    · simp at hl
    · split at hl
      · simp at hl
      · simp at hl

/-- C10: the degenerate branch fires exactly when sentence segmentation
yields zero sentences (not whenever no sentence is scorable — see
`C1_crash_on_unscorable_text`), and it returns the segmented sentence
sequence itself, which in that case is the empty list (so for `text = ""`
the empty sequence, not a joined string). -/
theorem C10_fallback_iff_no_sentences :
    ∀ (E : Extern) (text : String) (k : Int),
      (summarize E text k = .ok (.vList (sentencesOf E text))
        ↔ sentencesOf E text = [])
      ∧ ∀ l, summarize E text k = .ok (.vList l) →
          sentencesOf E text = [] ∧ l = [] := by
  intro E text k
  by_cases h : sentencesOf E text = []
  · have hrun : summarize E text k = .ok (.vList (sentencesOf E text)) := by
      unfold summarize
      rw [if_pos (by rw [wordsOf_isEmpty]; exact List.isEmpty_iff.mpr h)]
    refine ⟨⟨fun _ => h, fun _ => hrun⟩, fun l hl => ⟨h, ?_⟩⟩
    rw [hrun] at hl
    have : sentencesOf E text = l := by simpa using hl
    rw [← this, h]
  · refine ⟨⟨fun hl => absurd hl (summarize_no_vList E text k h _), fun hl => absurd hl h⟩,
      fun l hl => absurd hl (summarize_no_vList E text k h l)⟩

/-- C10 witness: the empty text segments to no sentences and `summarize`
returns that empty sentence list. -/
theorem C10_fallback_iff_no_sentences_witness :
    summarize testExtern "" 5 = .ok (.vList (sentencesOf testExtern "")) :=
  (C10_fallback_iff_no_sentences testExtern "" 5).1.mpr rfl
